import Mathlib

/-!
Verification of the markup rendering runtime (markup.rs): the HTML `escape`
routine from `markup-proc-macro/src/escape.rs` and the `Render` /
`RenderAttributeValue` implementations from `markup/src/lib.rs`, modelled by
explicit state passing over a writer sink.

Bytes are modelled as `Nat` values (the code works on `&[u8]`), a sink as a
call counter plus the log of successfully written buffers, and the sink's
failure behaviour as a function from call number to an optional io error
code.
-/

set_option autoImplicit false
set_option linter.unusedVariables false

/-- Model of `usize` overflow: offsets wrap modulo `2 ^ 64`
(`index.wrapping_add(1)` in the source). -/
def USIZE : Nat := 2 ^ 64

/-- An `std::io::Write` sink state: the number of `write_all` calls made so
far and the log of payloads of the successful calls, in order. -/
structure Sink where
  calls : Nat
  log : List (List Nat)
deriving Repr, DecidableEq

/-- The byte stream visible in the sink: concatenation of the successful
writes. -/
def Sink.bytes (w : Sink) : List Nat := w.log.flatten

/-- A sink behaviour: `beh n` is the outcome of the `n`-th `write_all` call
ever made on the sink (counting from 0), `none` for success or `some e` for
an io error with code `e`. -/
def Behaviour : Type := Nat → Option Nat

/-- The always-succeeding sink behaviour. -/
def okBeh : Behaviour := fun _ => none

/-- Model of `writer.write_all(buf)`: the call either transfers the whole
buffer to the sink or fails with the sink's error, per the behaviour at the
current call number. -/
def writeAll (beh : Behaviour) (buf : List Nat) (w : Sink) :
    Sink × Option Nat :=
  match beh w.calls with
  | none => (⟨w.calls + 1, w.log ++ [buf]⟩, none)
  | some e => (⟨w.calls + 1, w.log⟩, some e)

/-- Replacement bytes for `&` : the string `&amp;`. -/
def ampBytes : List Nat := [38, 97, 109, 112, 59]

/-- Replacement bytes for `<` : the string `&lt;`. -/
def ltBytes : List Nat := [38, 108, 116, 59]

/-- Replacement bytes for `>` : the string `&gt;`. -/
def gtBytes : List Nat := [38, 103, 116, 59]

/-- Replacement bytes for `"` : the string `&quot;`. -/
def quotBytes : List Nat := [38, 113, 117, 111, 116, 59]

/-- The `match byte` arms of `escape`: the entity written for a reserved
byte (`&` = 38, `<` = 60, `>` = 62, `"` = 34), `none` for every other
byte. -/
def escEntity (byte : Nat) : Option (List Nat) :=
  if byte = 38 then some ampBytes
  else if byte = 60 then some ltBytes
  else if byte = 62 then some gtBytes
  else if byte = 34 then some quotBytes
  else none

/-- The subslice `str[lo..hi]` of the Rust source (`get_unchecked(lo..hi)`). -/
def subslice (str : List Nat) (lo hi : Nat) : List Nat :=
  (str.take hi).drop lo

/-- The loop of `escape`: iterates over the remaining bytes, carrying the
running `index` from `enumerate` and the start `last` of the current
unescaped run.  On a reserved byte it flushes `str[last..index]`, writes the
entity and sets `last` to `index.wrapping_add(1)`; after the loop it flushes
the final run `str[last..]`.  Each `?` short-circuits with the sink's
error. -/
def escLoop (beh : Behaviour) (str : List Nat) :
    List Nat → Nat → Nat → Sink → Sink × Option Nat
  | [], _, last, w => writeAll beh (str.drop last) w
  | byte :: rest, index, last, w =>
    match escEntity byte with
    | some ent =>
      match writeAll beh (subslice str last index) w with
      | (w', some e) => (w', some e)
      | (w', none) =>
        match writeAll beh ent w' with
        | (w'', some e) => (w'', some e)
        | (w'', none) =>
          escLoop beh str rest (index + 1) ((index + 1) % USIZE) w''
    | none => escLoop beh str rest (index + 1) last w

/-- Model of `escape(str, writer)` from `escape.rs`. -/
def escape (beh : Behaviour) (str : List Nat) (w : Sink) :
    Sink × Option Nat :=
  escLoop beh str str 0 0 w

/-- The buffers `escape` passes to `write_all`, in order (the write plan of
the scan): mirrors `escLoop` with the sink effects stripped. -/
def escWritesLoop (str : List Nat) : List Nat → Nat → Nat → List (List Nat)
  | [], _, last => [str.drop last]
  | byte :: rest, index, last =>
    match escEntity byte with
    | some ent =>
      subslice str last index :: ent ::
        escWritesLoop str rest (index + 1) ((index + 1) % USIZE)
    | none => escWritesLoop str rest (index + 1) last

/-- The full write plan of `escape` on `str`. -/
def escapeWrites (str : List Nat) : List (List Nat) :=
  escWritesLoop str str 0 0

/-- Runs a write plan against a sink: performs each `write_all` in order,
stopping at the first failure. -/
def runPlan (beh : Behaviour) : List (List Nat) → Sink → Sink × Option Nat
  | [], w => (w, none)
  | buf :: rest, w =>
    match writeAll beh buf w with
    | (w', none) => runPlan beh rest w'
    | (w', some e) => (w', some e)

/-- Modelled from the spec's escaping table (§4.1): replace every occurrence
of `&` with `&amp;`, `<` with `&lt;`, `>` with `&gt;`, `"` with `&quot;`,
and copy every other byte unchanged, in order. -/
def escapeSpec : List Nat → List Nat
  | [] => []
  | b :: rest =>
    (if b = 38 then ampBytes
     else if b = 60 then ltBytes
     else if b = 62 then gtBytes
     else if b = 34 then quotBytes
     else [b]) ++ escapeSpec rest

/-- The bound checks of the escape scan, step by step: the flush of
`str[last..index]` on a reserved byte needs `last ≤ index` with
`index < str.length`, the final flush of `str[last..]` needs
`last ≤ str.length`, and the advance of `last` to `index + 1` must not
wrap. -/
def escInvLoop (str : List Nat) : List Nat → Nat → Nat → Bool
  | [], _, last => decide (last ≤ str.length)
  | byte :: rest, index, last =>
    decide (last ≤ index ∧ index < str.length) &&
    (match escEntity byte with
     | some _ =>
       decide (index + 1 < USIZE) &&
         escInvLoop str rest (index + 1) ((index + 1) % USIZE)
     | none => escInvLoop str rest (index + 1) last)

/-- The bound checks of the whole escape scan of `str`. -/
def escapeScanInv (str : List Nat) : Bool := escInvLoop str str 0 0

/-- Model of `<Escape<W> as Write>::write`: runs `escape` on the buffer and
maps success to `Ok(s.len())`. -/
def Escape.write (beh : Behaviour) (s : List Nat) (w : Sink) :
    Sink × Except Nat Nat :=
  match escape beh s w with
  | (w', none) => (w', .ok s.length)
  | (w', some e) => (w', .error e)

/-- UTF-8 encoding of a Unicode scalar value, as produced by
`char::encode_utf8` in the `char` `Render` impl. -/
def utf8Encode (c : Nat) : List Nat :=
  if c < 128 then [c]
  else if c < 2048 then [192 + c / 64, 128 + c % 64]
  else if c < 65536 then [224 + c / 4096, 128 + c / 64 % 64, 128 + c % 64]
  else [240 + c / 262144, 128 + c / 4096 % 64, 128 + c / 64 % 64,
    128 + c % 64]

/-- Literal bytes of `true`. -/
def trueBytes : List Nat := [116, 114, 117, 101]

/-- Literal bytes of `false`. -/
def falseBytes : List Nat := [102, 97, 108, 115, 101]

/-- The renderable values modelled from `markup/src/lib.rs`: `bool`, `char`,
text (`&str` / `String` / `Cow<str>`, all of which route through `escape`),
`Option<T>`, `RawBytes`, and the fixed-size tuples (a tuple is modelled by
the list of its components, rendered in declared order). -/
inductive Value where
  | vBool (b : Bool)
  | vChar (c : Nat)
  | vStr (s : List Nat)
  | vOpt (o : Option Value)
  | vRawBytes (s : List Nat)
  | vTuple (elems : List Value)
deriving Repr

mutual

/-- `Render::render`, impl by impl: `bool` writes the literal `true` /
`false`; `char` writes its UTF-8 encoding; `&str` calls `escape`;
`Option<T>` renders the contained value when present and does nothing when
absent; `RawBytes` writes its bytes verbatim; a tuple renders its components
in declared order, short-circuiting with `?` on the first failure. -/
def render (beh : Behaviour) : Value → Sink → Sink × Option Nat
  | .vBool b, w => writeAll beh (if b then trueBytes else falseBytes) w
  | .vChar c, w => writeAll beh (utf8Encode c) w
  | .vStr s, w => escape beh s w
  | .vOpt (some t), w => render beh t w
  | .vOpt none, w => (w, none)
  | .vRawBytes s, w => writeAll beh s w
  | .vTuple es, w => renderList beh es w

/-- The `$($ident.render(writer)?;)+` expansion of `tuple_impl!`: render
each component in order, stopping at the first error. -/
def renderList (beh : Behaviour) : List Value → Sink → Sink × Option Nat
  | [], w => (w, none)
  | v :: rest, w =>
    match render beh v w with
    | (w', none) => renderList beh rest w'
    | (w', some e) => (w', some e)

end

/-- `RenderAttributeValue::is_none`: overridden only by `Option<T>` (where
it forwards to `Option::is_none`); every other modelled impl keeps the
trait default `false`. -/
def Value.is_none : Value → Bool
  | .vOpt o => o.isNone
  | _ => false

/-- `RenderAttributeValue::is_true`: overridden only by `bool` (where it
returns the value); every other modelled impl keeps the trait default
`false`. -/
def Value.is_true : Value → Bool
  | .vBool b => b
  | _ => false

/-- `RenderAttributeValue::is_false`: overridden only by `bool` (where it
returns the negation); every other modelled impl keeps the trait default
`false`. -/
def Value.is_false : Value → Bool
  | .vBool b => !b
  | _ => false

mutual

/-- The buffers `render` passes to `write_all`, in order (the write plan of
a value). -/
def valueWrites : Value → List (List Nat)
  | .vBool b => [if b then trueBytes else falseBytes]
  | .vChar c => [utf8Encode c]
  | .vStr s => escapeWrites s
  | .vOpt (some t) => valueWrites t
  | .vOpt none => []
  | .vRawBytes s => [s]
  | .vTuple es => valuesWrites es

/-- The concatenated write plans of a list of values. -/
def valuesWrites : List Value → List (List Nat)
  | [] => []
  | v :: rest => valueWrites v ++ valuesWrites rest

end

/-- The individual render output of a value: the bytes a fresh, always
succeeding sink holds after rendering the value alone. -/
def renderOutput (v : Value) : List Nat :=
  ((render okBeh v ⟨0, []⟩).1).bytes

theorem runPlan_append (beh : Behaviour) (p q : List (List Nat)) (w : Sink) :
    runPlan beh (p ++ q) w =
      match runPlan beh p w with
      | (w', none) => runPlan beh q w'
      | (w', some e) => (w', some e) := by
  induction p generalizing w with
  | nil => simp [runPlan]
  | cons buf rest ih =>
    simp only [List.cons_append, runPlan]
    rcases h : writeAll beh buf w with ⟨w', r⟩
    cases r <;> simp [h, ih]

theorem escLoop_eq_runPlan (beh : Behaviour) (str : List Nat) :
    ∀ (rem : List Nat) (index last : Nat) (w : Sink),
      escLoop beh str rem index last w =
        runPlan beh (escWritesLoop str rem index last) w := by
  intro rem
  induction rem with
  | nil =>
    intro index last w
    rcases h : writeAll beh (str.drop last) w with ⟨w', r⟩
    cases r <;> simp [escLoop, escWritesLoop, runPlan, h]
  | cons byte rest ih =>
    intro index last w
    rcases hent : escEntity byte with _ | ent
    · simp [escLoop, escWritesLoop, hent, ih]
    · rcases h1 : writeAll beh (subslice str last index) w with ⟨w1, r1⟩
      rcases r1 with _ | e1
      · rcases h2 : writeAll beh ent w1 with ⟨w2, r2⟩
        rcases r2 with _ | e2
        · simp [escLoop, escWritesLoop, runPlan, hent, h1, h2, ih]
        · simp [escLoop, escWritesLoop, runPlan, hent, h1, h2]
      · simp [escLoop, escWritesLoop, runPlan, hent, h1]

theorem escape_eq_runPlan (beh : Behaviour) (str : List Nat) (w : Sink) :
    escape beh str w = runPlan beh (escapeWrites str) w :=
  escLoop_eq_runPlan beh str str 0 0 w

theorem runPlan_ok (beh : Behaviour) :
    ∀ (plan : List (List Nat)) (w : Sink),
      (∀ j, j < plan.length → beh (w.calls + j) = none) →
      runPlan beh plan w = (⟨w.calls + plan.length, w.log ++ plan⟩, none) := by
  intro plan
  induction plan with
  | nil => intro w _; simp [runPlan]
  | cons buf rest ih =>
    intro w h
    have h0 : beh w.calls = none := by
      have := h 0 (Nat.succ_pos _)
      simpa using this
    have hstep : writeAll beh buf w = (⟨w.calls + 1, w.log ++ [buf]⟩, none) := by
      simp [writeAll, h0]
    have hrec := ih ⟨w.calls + 1, w.log ++ [buf]⟩ (by
      intro j hj
      have := h (j + 1) (by simpa using Nat.succ_lt_succ hj)
      simpa [Nat.add_assoc, Nat.add_comm 1 j] using this)
    simp only [runPlan, hstep, hrec, Prod.mk.injEq, Sink.mk.injEq,
      List.length_cons]
    exact ⟨⟨by omega, by simp [List.append_assoc]⟩, trivial⟩

theorem runPlan_firstFail (beh : Behaviour) :
    ∀ (plan : List (List Nat)) (w : Sink) (k e : Nat),
      k < plan.length → beh (w.calls + k) = some e →
      (∀ j, j < k → beh (w.calls + j) = none) →
      runPlan beh plan w = (⟨w.calls + k + 1, w.log ++ plan.take k⟩, some e) := by
  intro plan
  induction plan with
  | nil => intro w k e hk; exact absurd hk (by simp)
  | cons buf rest ih =>
    intro w k e hk hfail hok
    cases k with
    | zero =>
      have h0 : beh w.calls = some e := by simpa using hfail
      simp [runPlan, writeAll, h0]
    | succ k =>
      have h0 : beh w.calls = none := by
        have := hok 0 (Nat.succ_pos _)
        simpa using this
      have hstep : writeAll beh buf w = (⟨w.calls + 1, w.log ++ [buf]⟩, none) := by
        simp [writeAll, h0]
      have hrec := ih ⟨w.calls + 1, w.log ++ [buf]⟩ k e
        (by simpa using Nat.lt_of_succ_lt_succ hk)
        (by
          have : w.calls + 1 + k = w.calls + (k + 1) := by omega
          rw [this]; exact hfail)
        (by
          intro j hj
          have := hok (j + 1) (Nat.succ_lt_succ hj)
          have harith : w.calls + 1 + j = w.calls + (j + 1) := by omega
          rw [harith]; exact this)
      simp only [runPlan, hstep, hrec, Prod.mk.injEq, Sink.mk.injEq]
      exact ⟨⟨by omega, by simp [List.take_succ_cons, List.append_assoc]⟩, trivial⟩

theorem runPlan_ok_log (beh : Behaviour) :
    ∀ (plan : List (List Nat)) (w w' : Sink),
      runPlan beh plan w = (w', none) → w'.log = w.log ++ plan := by
  intro plan
  induction plan with
  | nil =>
    intro w w' h
    simp only [runPlan] at h
    cases h
    simp
  | cons buf rest ih =>
    intro w w' h
    simp only [runPlan] at h
    rcases hb : beh w.calls with _ | e
    · have hw : writeAll beh buf w = (⟨w.calls + 1, w.log ++ [buf]⟩, none) := by
        simp [writeAll, hb]
      rw [hw] at h
      rw [ih _ w' h]
      simp
    · have hw : writeAll beh buf w = (⟨w.calls + 1, w.log⟩, some e) := by
        simp [writeAll, hb]
      rw [hw] at h
      simp at h

theorem runPlan_log_take (beh : Behaviour) :
    ∀ (plan : List (List Nat)) (w : Sink),
      ∃ k, k ≤ plan.length ∧
        ((runPlan beh plan w).1).log = w.log ++ plan.take k := by
  intro plan
  induction plan with
  | nil => intro w; exact ⟨0, by simp [runPlan]⟩
  | cons buf rest ih =>
    intro w
    simp only [runPlan]
    rcases hb : beh w.calls with _ | e
    · have hw : writeAll beh buf w = (⟨w.calls + 1, w.log ++ [buf]⟩, none) := by
        simp [writeAll, hb]
      rcases ih ⟨w.calls + 1, w.log ++ [buf]⟩ with ⟨k, hk, hlog⟩
      refine ⟨k + 1, by simpa using Nat.succ_le_succ hk, ?_⟩
      simp only [hw]
      simpa using hlog
    · have hw : writeAll beh buf w = (⟨w.calls + 1, w.log⟩, some e) := by
        simp [writeAll, hb]
      exact ⟨0, by simp [hw]⟩

theorem flatten_take_prefix (plan : List (List Nat)) (k : Nat) :
    List.IsPrefix ((plan.take k).flatten) plan.flatten :=
  ⟨(plan.drop k).flatten, by
    rw [← List.flatten_append _ _, List.take_append_drop]⟩

theorem subslice_succ (str : List Nat) (lo i byte : Nat) (hlo : lo ≤ i)
    (hi : i < str.length) (hb : str[i]? = some byte) :
    subslice str lo (i + 1) = subslice str lo i ++ [byte] := by
  unfold subslice
  have hlen : lo ≤ (str.take i).length := by
    rw [List.length_take_of_le (Nat.le_of_lt hi)]; exact hlo
  rw [List.take_succ, hb, List.drop_append_of_le_length hlen]
  rfl

theorem subslice_self (str : List Nat) (i : Nat) : subslice str i i = [] := by
  unfold subslice
  apply List.drop_of_length_le
  rw [List.length_take]
  exact Nat.min_le_left _ _

theorem subslice_length_eq_drop (str : List Nat) (lo : Nat) :
    subslice str lo str.length = str.drop lo := by
  unfold subslice
  rw [List.take_length]

theorem escapeSpec_cons_entity {byte : Nat} {ent : List Nat}
    (h : escEntity byte = some ent) (rest : List Nat) :
    escapeSpec (byte :: rest) = ent ++ escapeSpec rest := by
  have hif : (if byte = 38 then ampBytes else if byte = 60 then ltBytes
      else if byte = 62 then gtBytes else if byte = 34 then quotBytes
      else [byte]) = ent := by
    unfold escEntity at h
    split_ifs at h ⊢ <;> simp_all
  simp only [escapeSpec]
  rw [hif]

theorem escapeSpec_cons_plain {byte : Nat} (h : escEntity byte = none)
    (rest : List Nat) :
    escapeSpec (byte :: rest) = byte :: escapeSpec rest := by
  have hif : (if byte = 38 then ampBytes else if byte = 60 then ltBytes
      else if byte = 62 then gtBytes else if byte = 34 then quotBytes
      else [byte]) = [byte] := by
    unfold escEntity at h
    split_ifs at h ⊢
    rfl
  simp only [escapeSpec]
  rw [hif]
  rfl

theorem escWritesLoop_flatten (str : List Nat) (hrlen : str.length < USIZE) :
    ∀ (rem : List Nat) (index last : Nat),
      rem = str.drop index → last ≤ index → index ≤ str.length →
      (escWritesLoop str rem index last).flatten =
        subslice str last index ++ escapeSpec rem := by
  intro rem
  induction rem with
  | nil =>
    intro index last hrem hlast hidx
    have hlen : str.length ≤ index := List.drop_eq_nil_iff.mp hrem.symm
    have hix : index = str.length := Nat.le_antisymm hidx hlen
    subst hix
    simp [escWritesLoop, escapeSpec, subslice_length_eq_drop]
  | cons byte rest ih =>
    intro index last hrem hlast hidx
    have hlt : index < str.length := by
      by_contra hc
      push_neg at hc
      rw [List.drop_eq_nil_iff.mpr hc] at hrem
      cases hrem
    have hb : str[index]? = some byte := by
      have h0 : (str.drop index)[0]? = some byte := by rw [← hrem]; simp
      rwa [List.getElem?_drop, Nat.add_zero] at h0
    have hrest : rest = str.drop (index + 1) := by
      have hdd : List.drop 1 (List.drop index str) = List.drop (index + 1) str :=
        List.drop_drop 1 index str
      rw [← hdd, ← hrem]
      simp
    rcases hent : escEntity byte with _ | ent
    · have hrec := ih (index + 1) last hrest (Nat.le_succ_of_le hlast)
        (Nat.succ_le_of_lt hlt)
      simp only [escWritesLoop, hent]
      rw [hrec, escapeSpec_cons_plain hent,
        subslice_succ str last index byte hlast hlt hb]
      simp
    · have hus : index + 1 < USIZE :=
        Nat.lt_of_le_of_lt (Nat.succ_le_of_lt hlt) hrlen
      have hmod : (index + 1) % USIZE = index + 1 := Nat.mod_eq_of_lt hus
      have hrec := ih (index + 1) (index + 1) hrest (le_refl _)
        (Nat.succ_le_of_lt hlt)
      simp only [escWritesLoop, hent, hmod, List.flatten_cons]
      rw [hrec, escapeSpec_cons_entity hent, subslice_self]
      simp

theorem escapeWrites_flatten (str : List Nat) (h : str.length < USIZE) :
    (escapeWrites str).flatten = escapeSpec str := by
  have hmain := escWritesLoop_flatten str h str 0 0 rfl (le_refl 0)
    (Nat.zero_le _)
  simpa [escapeWrites, subslice] using hmain

theorem escWritesLoop_noReserved (str : List Nat) :
    ∀ (rem : List Nat) (index last : Nat),
      (∀ b ∈ rem, escEntity b = none) →
      escWritesLoop str rem index last = [str.drop last] := by
  intro rem
  induction rem with
  | nil => intro index last _; rfl
  | cons byte rest ih =>
    intro index last h
    have hb : escEntity byte = none := h byte (List.mem_cons_self _ _)
    simp only [escWritesLoop, hb]
    exact ih (index + 1) last (fun b hbm => h b (List.mem_cons_of_mem _ hbm))

theorem escInvLoop_true (str : List Nat) (hlen : str.length < USIZE - 1) :
    ∀ (rem : List Nat) (index last : Nat),
      rem = str.drop index → last ≤ index → index ≤ str.length →
      escInvLoop str rem index last = true := by
  intro rem
  induction rem with
  | nil =>
    intro index last hrem hlast hidx
    have hl : str.length ≤ index := List.drop_eq_nil_iff.mp hrem.symm
    simp only [escInvLoop, decide_eq_true_eq]
    omega
  | cons byte rest ih =>
    intro index last hrem hlast hidx
    have hlt : index < str.length := by
      by_contra hc
      push_neg at hc
      rw [List.drop_eq_nil_iff.mpr hc] at hrem
      cases hrem
    have hrest : rest = str.drop (index + 1) := by
      have hdd : List.drop 1 (List.drop index str) = List.drop (index + 1) str :=
        List.drop_drop 1 index str
      rw [← hdd, ← hrem]
      simp
    rcases hent : escEntity byte with _ | ent <;> simp only [escInvLoop, hent]
    · have hrec := ih (index + 1) last hrest (Nat.le_succ_of_le hlast)
        (Nat.succ_le_of_lt hlt)
      simp [hrec, hlast, hlt]
    · have hus : index + 1 < USIZE := by omega
      have hmod : (index + 1) % USIZE = index + 1 := Nat.mod_eq_of_lt hus
      have hrec := ih (index + 1) (index + 1) hrest (le_refl _)
        (Nat.succ_le_of_lt hlt)
      simp [hmod, hrec, hlast, hlt, hus]

mutual

theorem render_eq_runPlan (beh : Behaviour) :
    ∀ (v : Value) (w : Sink), render beh v w = runPlan beh (valueWrites v) w
  | .vBool b, w => by
    rcases h : writeAll beh (if b then trueBytes else falseBytes) w with ⟨w', r⟩
    cases r <;> simp [render, valueWrites, runPlan, h]
  | .vChar c, w => by
    rcases h : writeAll beh (utf8Encode c) w with ⟨w', r⟩
    cases r <;> simp [render, valueWrites, runPlan, h]
  | .vStr s, w => by
    simp [render, valueWrites, escape_eq_runPlan]
  | .vOpt (some t), w => by
    simp only [render, valueWrites]
    exact render_eq_runPlan beh t w
  | .vOpt none, w => by
    simp [render, valueWrites, runPlan]
  | .vRawBytes s, w => by
    rcases h : writeAll beh s w with ⟨w', r⟩
    cases r <;> simp [render, valueWrites, runPlan, h]
  | .vTuple es, w => by
    simp only [render, valueWrites]
    exact renderList_eq_runPlan beh es w

theorem renderList_eq_runPlan (beh : Behaviour) :
    ∀ (es : List Value) (w : Sink),
      renderList beh es w = runPlan beh (valuesWrites es) w
  | [], w => by simp [renderList, valuesWrites, runPlan]
  | v :: rest, w => by
    have hv := render_eq_runPlan beh v w
    simp only [renderList, valuesWrites, runPlan_append, ← hv]
    rcases h : render beh v w with ⟨w', r⟩
    rcases r with _ | e
    · exact renderList_eq_runPlan beh rest w'
    · rfl

end

theorem renderOutput_eq (v : Value) :
    renderOutput v = (valueWrites v).flatten := by
  unfold renderOutput
  rw [render_eq_runPlan,
    runPlan_ok okBeh (valueWrites v) ⟨0, []⟩ (fun j _ => rfl)]
  simp [Sink.bytes]

theorem valuesWrites_flatten (es : List Value) :
    (valuesWrites es).flatten = (es.map renderOutput).flatten := by
  induction es with
  | nil => rfl
  | cons v rest ih =>
    simp [valuesWrites, List.flatten_append _ _, renderOutput_eq, ih]

theorem renderList_firstFail (beh : Behaviour) :
    ∀ (es : List Value) (w w' : Sink) (e : Nat),
      renderList beh es w = (w', some e) →
      ∃ k, ∃ hk : k < es.length, ∃ wk,
        renderList beh (es.take k) w = (wk, none) ∧
        render beh (es.get ⟨k, hk⟩) wk = (w', some e) := by
  intro es
  induction es with
  | nil =>
    intro w w' e h
    simp [renderList] at h
  | cons v rest ih =>
    intro w w' e h
    simp only [renderList] at h
    rcases hv : render beh v w with ⟨w1, r⟩
    rw [hv] at h
    rcases r with _ | e1
    · rcases ih w1 w' e h with ⟨k, hk, wk, h1, h2⟩
      refine ⟨k + 1, Nat.succ_lt_succ hk, wk, ?_, ?_⟩
      · simp only [List.take_succ_cons, renderList, hv]
        exact h1
      · exact h2
    · simp at h
      refine ⟨0, Nat.succ_pos _, w, by simp [renderList], ?_⟩
      simp only [List.get]
      rw [hv, h.1, h.2]

/-- C1: for every byte string (of machine-representable length), `escape`
writes to the sink exactly the byte sequence obtained by replacing `&` with
`&amp;`, `<` with `&lt;`, `>` with `&gt;`, `"` with `&quot;` and copying
every other byte unchanged in order, with no other substitution. -/
theorem escape_writes_escapeSpec (s : List Nat) (w : Sink)
    (h : s.length < USIZE) :
    (escape okBeh s w).2 = none ∧
      ((escape okBeh s w).1).bytes = w.bytes ++ escapeSpec s := by
  rw [escape_eq_runPlan,
    runPlan_ok okBeh (escapeWrites s) w (fun j _ => rfl)]
  refine ⟨rfl, ?_⟩
  simp [Sink.bytes, List.flatten_append, escapeWrites_flatten s h]

/-- Witness for C1 at the input `a<b`. -/
theorem escape_writes_escapeSpec_witness :
    ([97, 60, 98] : List Nat).length < USIZE ∧
      ((escape okBeh [97, 60, 98] ⟨0, []⟩).2 = none ∧
        ((escape okBeh [97, 60, 98] ⟨0, []⟩).1).bytes =
          (Sink.mk 0 []).bytes ++ escapeSpec [97, 60, 98]) :=
  ⟨by decide, escape_writes_escapeSpec [97, 60, 98] ⟨0, []⟩ (by decide)⟩

/-- C2: a render call never observes torn output: when it succeeds, the sink
received exactly the value's full render output, and when it fails the error
is surfaced and the sink holds a prefix of that output (the flushed
part). -/
theorem render_atomicity (beh : Behaviour) (v : Value) (w : Sink) :
    (∀ w', render beh v w = (w', none) →
      w'.bytes = w.bytes ++ renderOutput v) ∧
    (∀ w' e, render beh v w = (w', some e) →
      ∃ p, w'.bytes = w.bytes ++ p ∧ List.IsPrefix p (renderOutput v)) := by
  constructor
  · intro w' h
    rw [render_eq_runPlan] at h
    have hlog := runPlan_ok_log beh (valueWrites v) w w' h
    simp [Sink.bytes, hlog, List.flatten_append, renderOutput_eq]
  · intro w' e h
    rcases runPlan_log_take beh (valueWrites v) w with ⟨k, hk, hlog⟩
    rw [render_eq_runPlan] at h
    rw [h] at hlog
    refine ⟨((valueWrites v).take k).flatten, ?_, ?_⟩
    · simp only at hlog
      simp [Sink.bytes, hlog, List.flatten_append]
    · rw [renderOutput_eq]
      exact flatten_take_prefix _ k

/-- Witness for C2: a text value whose third sink write fails. -/
theorem render_atomicity_witness :
    render (fun n => if n = 2 then some 5 else none)
        (.vStr [60, 60]) ⟨0, []⟩ =
      (⟨3, [[], [38, 108, 116, 59]]⟩, some 5) ∧
    (∃ p, (Sink.mk 3 [[], [38, 108, 116, 59]]).bytes =
        (Sink.mk 0 []).bytes ++ p ∧
      List.IsPrefix p (renderOutput (.vStr [60, 60]))) :=
  ⟨rfl,
    (render_atomicity (fun n => if n = 2 then some 5 else none)
      (.vStr [60, 60]) ⟨0, []⟩).2 ⟨3, [[], [38, 108, 116, 59]]⟩ 5 rfl⟩

/-- C3: `escape` returns an error exactly when a sink write fails, returns
that sink's error, and attempts no write after the first failing one: on a
sink that fails at the `k`-th write, exactly the first `k` buffers of the
write plan reach the sink and the call counter stops at `k + 1`. -/
theorem escape_error_exact (beh : Behaviour) (s : List Nat) :
    ((∀ j, j < (escapeWrites s).length → beh j = none) →
      escape beh s ⟨0, []⟩ =
        (⟨(escapeWrites s).length, escapeWrites s⟩, none)) ∧
    (∀ k e, k < (escapeWrites s).length → beh k = some e →
      (∀ j, j < k → beh j = none) →
      escape beh s ⟨0, []⟩ =
        (⟨k + 1, (escapeWrites s).take k⟩, some e)) := by
  constructor
  · intro h
    rw [escape_eq_runPlan]
    have hrp := runPlan_ok beh (escapeWrites s) ⟨0, []⟩
      (by intro j hj; simpa using h j hj)
    simpa using hrp
  · intro k e hk hf ho
    rw [escape_eq_runPlan]
    have hrp := runPlan_firstFail beh (escapeWrites s) ⟨0, []⟩ k e hk
      (by simpa using hf) (by intro j hj; simpa using ho j hj)
    simpa using hrp

/-- Witness for C3: on `a<b` with a sink failing at the second write, the
error 7 comes back after only the run `a` was written. -/
theorem escape_error_exact_witness :
    1 < (escapeWrites [97, 60, 98]).length ∧
      (fun n => if n = 1 then some 7 else none) 1 = some 7 ∧
      escape (fun n => if n = 1 then some 7 else none) [97, 60, 98] ⟨0, []⟩ =
        (⟨2, [[97]]⟩, some 7) := by
  refine ⟨by decide, rfl, ?_⟩
  have hmain := (escape_error_exact (fun n => if n = 1 then some 7 else none)
    [97, 60, 98]).2 1 7 (by decide) rfl
    (by intro j hj; obtain rfl := Nat.lt_one_iff.mp hj; rfl)
  exact hmain

/-- C4: on input with none of the four reserved bytes, `escape` performs
exactly one `write_all` of the whole buffer and the sink receives the input
unchanged; empty input produces empty output with one trivial flush. -/
theorem escape_no_reserved (s : List Nat) (w : Sink)
    (h : ∀ b ∈ s, escEntity b = none) :
    escapeWrites s = [s] ∧
      escape okBeh s w = (⟨w.calls + 1, w.log ++ [s]⟩, none) ∧
      ((escape okBeh ([] : List Nat) w).1).bytes = w.bytes := by
  have hplan : escapeWrites s = [s] := by
    have hnr := escWritesLoop_noReserved s s 0 0 h
    simpa [escapeWrites] using hnr
  refine ⟨hplan, ?_, ?_⟩
  · rw [escape_eq_runPlan, hplan]
    have hrp := runPlan_ok okBeh [s] w (fun j _ => rfl)
    simpa using hrp
  · simp [escape, escLoop, writeAll, okBeh, Sink.bytes, List.flatten_append]

/-- Witness for C4 at the reserved-free input `abc`. -/
theorem escape_no_reserved_witness :
    (∀ b ∈ ([97, 98, 99] : List Nat), escEntity b = none) ∧
      (escapeWrites [97, 98, 99] = [[97, 98, 99]] ∧
        escape okBeh [97, 98, 99] ⟨0, []⟩ =
          (⟨1, [[97, 98, 99]]⟩, none) ∧
        ((escape okBeh ([] : List Nat) ⟨0, []⟩).1).bytes =
          (Sink.mk 0 []).bytes) :=
  ⟨by decide, escape_no_reserved [97, 98, 99] ⟨0, []⟩ (by decide)⟩

/-- C5: rendering a tuple of renderable values (arity 1 through 10) emits
exactly the concatenation of each component's individual render output in
declared left-to-right order; when a component's render fails, the error is
returned after the preceding components rendered completely, and no later
component is rendered. -/
theorem tuple_render_concat (beh : Behaviour) (es : List Value) (w : Sink)
    (h1 : 1 ≤ es.length) (h2 : es.length ≤ 10) :
    (∀ w', render beh (.vTuple es) w = (w', none) →
      w'.bytes = w.bytes ++ (es.map renderOutput).flatten) ∧
    (∀ w' e, render beh (.vTuple es) w = (w', some e) →
      ∃ k, ∃ hk : k < es.length, ∃ wk,
        renderList beh (es.take k) w = (wk, none) ∧
        render beh (es.get ⟨k, hk⟩) wk = (w', some e)) := by
  constructor
  · intro w' h
    have hh : renderList beh es w = (w', none) := by
      simpa [render] using h
    rw [renderList_eq_runPlan] at hh
    have hlog := runPlan_ok_log beh (valuesWrites es) w w' hh
    simp [Sink.bytes, hlog, List.flatten_append, valuesWrites_flatten]
  · intro w' e h
    have hh : renderList beh es w = (w', some e) := by
      simpa [render] using h
    exact renderList_firstFail beh es w w' e hh

/-- Witness for C5: a pair of booleans on a sink whose second write
fails. -/
theorem tuple_render_concat_witness :
    (1 ≤ ([Value.vBool true, Value.vBool false] : List Value).length ∧
        ([Value.vBool true, Value.vBool false] : List Value).length ≤ 10) ∧
      ((∀ w', render (fun n => if n = 1 then some 5 else none)
            (.vTuple [Value.vBool true, Value.vBool false]) ⟨0, []⟩ =
            (w', none) →
          w'.bytes = (Sink.mk 0 []).bytes ++
            (([Value.vBool true, Value.vBool false]).map renderOutput).flatten) ∧
        (∀ w' e, render (fun n => if n = 1 then some 5 else none)
            (.vTuple [Value.vBool true, Value.vBool false]) ⟨0, []⟩ =
            (w', some e) →
          ∃ k, ∃ hk : k <
              ([Value.vBool true, Value.vBool false] : List Value).length,
            ∃ wk, renderList (fun n => if n = 1 then some 5 else none)
              (([Value.vBool true, Value.vBool false]).take k) ⟨0, []⟩ =
                (wk, none) ∧
              render (fun n => if n = 1 then some 5 else none)
                (([Value.vBool true, Value.vBool false]).get ⟨k, hk⟩) wk =
                (w', some e))) :=
  ⟨⟨by decide, by decide⟩,
    tuple_render_concat (fun n => if n = 1 then some 5 else none)
      [Value.vBool true, Value.vBool false] ⟨0, []⟩ (by decide) (by decide)⟩

/-- C6: `bool` renders as the literal `true` / `false`; `is_true` returns
the value, `is_false` its negation (mutually exclusive and jointly
exhaustive), and `is_none` is always false. -/
theorem bool_render_predicates (b : Bool) (w : Sink) :
    render okBeh (.vBool b) w =
      (⟨w.calls + 1, w.log ++ [if b then trueBytes else falseBytes]⟩, none) ∧
    Value.is_true (.vBool b) = b ∧
    Value.is_false (.vBool b) = !b ∧
    (Value.is_true (.vBool b) && Value.is_false (.vBool b)) = false ∧
    (Value.is_true (.vBool b) || Value.is_false (.vBool b)) = true ∧
    Value.is_none (.vBool b) = false := by
  refine ⟨?_, ?_, ?_, ?_, ?_, ?_⟩ <;> cases b <;>
    simp [render, writeAll, okBeh, Value.is_true, Value.is_false,
      Value.is_none]

/-- C7: for optional values `is_none` is true exactly when the value is
absent; a present value renders exactly as the contained value, an absent
one writes nothing and succeeds; `is_true` and `is_false` keep the default
false even when the contained value is a boolean. -/
theorem option_render_predicates (beh : Behaviour) (o : Option Value)
    (w : Sink) :
    Value.is_none (.vOpt o) = o.isNone ∧
    (∀ t, render beh (.vOpt (some t)) w = render beh t w) ∧
    render beh (.vOpt none) w = (w, none) ∧
    Value.is_true (.vOpt o) = false ∧
    Value.is_false (.vOpt o) = false := by
  refine ⟨rfl, fun t => ?_, ?_, rfl, rfl⟩ <;> simp [render]

/-- C8: `char` renders as its UTF-8 encoding written verbatim to the sink,
never escaped: the character `<` renders as the byte `<` itself, while the
one-character text `<` renders as `&lt;`. -/
theorem char_render_verbatim (c : Nat) (w : Sink) :
    render okBeh (.vChar c) w =
      (⟨w.calls + 1, w.log ++ [utf8Encode c]⟩, none) ∧
    utf8Encode 60 = [60] ∧
    ((render okBeh (.vChar 60) ⟨0, []⟩).1).bytes = [60] ∧
    ((render okBeh (.vStr [60]) ⟨0, []⟩).1).bytes = [38, 108, 116, 59] := by
  refine ⟨?_, rfl, rfl, rfl⟩
  simp [render, writeAll, okBeh]

/-- C9: over any input shorter than the offset type's maximum, the escape
scan maintains `last ≤ index ≤ length` at every step, every slice it takes
is in bounds, and the advance of `last` never wraps. -/
theorem escape_scan_inv_holds (s : List Nat) (h : s.length < USIZE - 1) :
    escapeScanInv s = true :=
  escInvLoop_true s h s 0 0 rfl (le_refl 0) (Nat.zero_le _)

/-- Witness for C9 at the input `a<b`. -/
theorem escape_scan_inv_holds_witness :
    ([97, 60, 98] : List Nat).length < USIZE - 1 ∧
      escapeScanInv [97, 60, 98] = true :=
  ⟨by decide, escape_scan_inv_holds [97, 60, 98] (by decide)⟩

/-- C10: the `Escape` sink adapter's `write` returns `Ok(s.len())` whenever
escaping `s` succeeds — reporting the whole input as consumed even though
the byte count actually written may differ from `s.len()` — and returns the
sink's error when escaping fails. -/
theorem escape_adapter_reports_full_length (beh : Behaviour) (s : List Nat)
    (w : Sink) :
    ((escape beh s w).2 = none →
      Escape.write beh s w = ((escape beh s w).1, Except.ok s.length)) ∧
    (∀ e, (escape beh s w).2 = some e →
      Escape.write beh s w = ((escape beh s w).1, Except.error e)) ∧
    ((escape okBeh [60] ⟨0, []⟩).1.bytes.length ≠
      ([60] : List Nat).length) := by
  refine ⟨?_, ?_, by decide⟩
  · intro h
    rcases he : escape beh s w with ⟨w', r⟩
    rw [he] at h
    rcases r with _ | e'
    · simp [Escape.write, he]
    · simp at h
  · intro e h
    rcases he : escape beh s w with ⟨w', r⟩
    rw [he] at h
    rcases r with _ | e'
    · simp at h
    · simp at h
      subst h
      simp [Escape.write, he]

/-- Witness for C10: success on `<` reports length 1 consumed; a sink
failing immediately surfaces its error 9. -/
theorem escape_adapter_reports_full_length_witness :
    ((escape okBeh [60] ⟨0, []⟩).2 = none ∧
      Escape.write okBeh [60] ⟨0, []⟩ =
        ((escape okBeh [60] ⟨0, []⟩).1,
          Except.ok ([60] : List Nat).length)) ∧
    ((escape (fun _ => some 9) [60] ⟨0, []⟩).2 = some 9 ∧
      Escape.write (fun _ => some 9) [60] ⟨0, []⟩ =
        ((escape (fun _ => some 9) [60] ⟨0, []⟩).1, Except.error 9)) :=
  ⟨⟨rfl, (escape_adapter_reports_full_length okBeh [60] ⟨0, []⟩).1 rfl⟩,
    ⟨rfl, (escape_adapter_reports_full_length (fun _ => some 9) [60]
      ⟨0, []⟩).2.1 9 rfl⟩⟩
